import Mathlib

/-!
Shallow embedding of the go-agents agent runtime core
(`agent/core/runner.go`, `agent/core/agent.go`, the supervisor policies and
the `SimpleGuardrails` middleware), together with theorems settling the
specification claims about it.

Go strings are modelled as Lean `String` values; Go byte-length `len(s)` and
byte slicing `s[:n]` are modelled on the underlying character sequence
(`String.data`).  Go `error` results are modelled with `Except String` /
`Option String` (`none` = nil error).  External collaborators (the LM client,
`time.ParseDuration`, `encoding/json`) are modelled as oracle functions
supplied in an environment record.
-/

namespace GoAgents

/-- core.Message: a conversation message with role, content and optional
string-to-string metadata (`nil` map modelled as `[]`). -/
structure Message where
  Role : String
  Content : String
  Meta : List (String × String) := []
deriving Repr, DecidableEq

/-- llm.Message: a message in an LM chat request (engine-relevant fields). -/
structure LMessage where
  Role : String
  Content : String
  MsgName : String := ""
  ToolCallID : String := ""
deriving Repr, DecidableEq

/-- llm.Function: the function named by a tool call, with its raw JSON
argument string. -/
structure FunctionCall where
  FnName : String
  Arguments : String
deriving Repr, DecidableEq

/-- llm.ToolCall: a tool call requested by the LM. -/
structure ToolCall where
  ID : String
  CallType : String := "function"
  Function : FunctionCall
deriving Repr, DecidableEq

/-- llm.Response: an LM response (the fields the engine reads: content and
tool calls; provider metadata, usage and timing are payload the engine never
branches on and are omitted). -/
structure Response where
  Content : String
  ToolCalls : List ToolCall := []
  FinishReason : String := ""
deriving Repr, DecidableEq

/-- llm.ToolFunction: a function definition advertised to the LM.  The
JSON-schema `Parameters` map is uninterpreted payload copied verbatim from the tool
and never inspected by the engine; it is omitted from the model. -/
structure ToolFunction where
  FnName : String
  Description : String
deriving Repr, DecidableEq

/-- llm.Tool: a tool definition sent with a chat request. -/
structure LlmTool where
  ToolType : String := "function"
  Function : ToolFunction
deriving Repr, DecidableEq

/-- llm.ChatRequest: the engine-relevant fields (messages, tool catalog, and
the system-prompt field which the engine always leaves empty because the
prompt is injected as the first message). -/
structure ChatRequest where
  Messages : List LMessage
  Tools : List LlmTool := []
  SystemPrompt : String := ""
deriving Repr, DecidableEq

/-- Conversion used in prompt assembly: a stored core.Message becomes an
llm.Message carrying only role and content. -/
def toLMsg (m : Message) : LMessage :=
  { Role := m.Role, Content := m.Content }

/-- core.AgentConfig. -/
structure AgentConfig where
  MaxIterations : Int
  Timeout : String
  SystemPrompt : String
  ModelOverride : String := ""
deriving Repr, DecidableEq

/-! ## Memory model

The engine uses a memory.Store only through `Retrieve`/`Store` on the fixed
key `conversation`.  A bound store holds either nothing under that key
(`Retrieve` returns an error) or a value that is a `[]Message` slice or a
single legacy `Message`.  The in-memory backend never fails on `Store`. -/

/-- A value stored under the `conversation` key: a slice of messages, or a
single legacy message. -/
inductive MemValue
  | msgs (l : List Message)
  | single (m : Message)
deriving Repr, DecidableEq

/-- The agent's memory binding: no store bound (`a.Mem == nil`), or a bound
store whose `conversation` key holds `contents` (`none` = key absent, so
`Retrieve` errors). -/
inductive MemBinding
  | unbound
  | bound (contents : Option MemValue)
deriving Repr, DecidableEq

/-! ## TokenLimiter (agent/core/agent.go) -/

/-- core.TokenLimiter: removes oldest messages until roughly under a
character budget. -/
structure TokenLimiter where
  MaxChars : Int
deriving Repr, DecidableEq

/-- The trimming loop of TokenLimiter.Process: Go iterates the history from
newest to oldest (`for i := len-1; i >= 0; i--`); here the already-reversed
history is traversed front to back.  A message that would push the running
total `cur` over the budget is skipped (`continue`) and scanning goes on with
the older messages. -/
def trimLoop (maxChars : Nat) : List Message → Nat → List Message
  | [], _ => []
  | m :: rest, cur =>
    if cur + m.Content.length > maxChars then
      trimLoop maxChars rest cur
    else
      m :: trimLoop maxChars rest (cur + m.Content.length)

/-- TokenLimiter.Process: returns the history unchanged when the budget is
non-positive or the total content length already fits; otherwise runs the
newest-to-oldest trimming loop and reverses the kept messages back to
chronological order. -/
def TokenLimiter.Process (t : TokenLimiter) (history : List Message) : List Message :=
  if t.MaxChars ≤ 0 then history
  else
    let total : Nat := (history.map fun m => m.Content.length).sum
    if (total : Int) ≤ t.MaxChars then history
    else (trimLoop t.MaxChars.toNat history.reverse 0).reverse

/-! ## SimpleGuardrails (agent/core guardrails middleware) -/

/-- core.SimpleGuardrails configuration. -/
structure SimpleGuardrails where
  DenySubstrings : List String := []
  AllowSubstrings : List String := []
  MaxInputChars : Int := 0
deriving Repr, DecidableEq

/-- The truncation step of SimpleGuardrails.BeforeLLMCall: when
`MaxInputChars > 0` and the content is longer, slice the content down to
`MaxInputChars` (Go `last.Content = last.Content[:g.MaxInputChars]`). -/
def SimpleGuardrails.truncateStep (g : SimpleGuardrails) (content : String) : String :=
  if 0 < g.MaxInputChars ∧ g.MaxInputChars < (content.length : Int) then
    String.mk (content.data.take g.MaxInputChars.toNat)
  else content

/-- Go strings.ToLower on a string modelled character-wise. -/
def goToLower (s : String) : String :=
  String.mk (s.data.map Char.toLower)

/-- Go strings.Contains: substring containment. -/
def goContains (s sub : String) : Bool :=
  decide (sub.data <:+: s.data)

/-- The deny-list check of SimpleGuardrails.BeforeLLMCall: blocked iff some
non-empty deny substring occurs case-insensitively in the content. -/
def SimpleGuardrails.denyHit (g : SimpleGuardrails) (content : String) : Bool :=
  g.DenySubstrings.any fun s =>
    if s = "" then false
    else goContains (goToLower content) (goToLower s)

/-- The allow-list check of SimpleGuardrails.BeforeLLMCall: when the allow
list is non-empty, permitted iff some non-empty allow substring occurs
case-insensitively in the content. -/
def SimpleGuardrails.allowHit (g : SimpleGuardrails) (content : String) : Bool :=
  g.AllowSubstrings.any fun s =>
    if s = "" then false
    else goContains (goToLower content) (goToLower s)

/-- SimpleGuardrails.BeforeLLMCall: if the last request message has role
`user`, truncate its content in place, then apply the deny list and the
allow list; otherwise pass the request through unchanged. -/
def SimpleGuardrails.BeforeLLMCall (g : SimpleGuardrails) (msgs : List LMessage) :
    Except String (List LMessage) :=
  match msgs.getLast? with
  | none => .ok msgs
  | some last =>
    if last.Role = "user" then
      let content := g.truncateStep last.Content
      if g.denyHit content then .error "request blocked by guardrails"
      else if g.AllowSubstrings ≠ [] ∧ g.allowHit content = false then
        .error "request not permitted by guardrails"
      else .ok (msgs.dropLast ++ [{ last with Content := content }])
    else .ok msgs

/-! ## Middleware, registry and environment -/

/-- core.Middleware: the five lifecycle hooks, each modelled as a function
from the hook's arguments to an optional error (`none` = nil error). -/
structure Middleware where
  BeforeLLMCall : ChatRequest → Option String
  AfterLLMResponse : Response → Option String
  BeforeToolExecute : String → String → Option String
  AfterToolExecute : String → String → Option String
  AfterRun : Message → Option String

/-- tools.Tool: a registered tool.  `Execute` is the tool's behaviour,
returning a result string or an error. -/
structure RegTool where
  ToolName : String
  Description : String
  Execute : String → Except String String

/-- Registry.Get: resolve a tool by name (first registered wins; the Go
registry map has unique names). -/
def regGet (reg : List RegTool) (tname : String) : Option RegTool :=
  reg.find? fun t => t.ToolName = tname

/-- Registry.Execute: resolve by name and run the tool; an unknown name is
the "tool not found" error. -/
def regExecute (reg : List RegTool) (tname : String) (input : String) :
    Except String String :=
  match regGet reg tname with
  | none => .error ("tool " ++ tname ++ " not found")
  | some t => t.Execute input

/-- External (stdlib) collaborators used by the engine, modelled as oracles:
`parseDuration` is time.ParseDuration (`none` = parse error), and
`parseInputArg` is the json.Unmarshal step extracting a string field `input`
from the argument object (`none` = not an object with a string `input`). -/
structure GoEnv where
  parseDuration : String → Option Nat
  parseInputArg : String → Option String

/-- core.ChatAgent: the LM client is modelled as a deterministic oracle from
chat request to response-or-error; `StreamChunks` is the sequence of chunks
the client's Stream method delivers on the inner channel before closing it
(`none` = a nil chunk, which the engine skips). -/
structure ChatAgent where
  Model : ChatRequest → Except String Response
  StreamChunks : List (Option Response)
  Tools : Option (List RegTool)
  Mem : MemBinding
  Config : AgentConfig
  processors : List (List Message → List Message)
  mw : List Middleware

/-! ## Memory steps of Run (runner.go lines 69-98 and 242-263) -/

/-- The input/response append step of ChatAgent.Run: when a store is bound,
retrieve `conversation`; if it holds a `[]Message` slice, append `m` and
store it back; on any other retrieved value, or when retrieval errors, store
the one-element slice `[m]`.  In particular a stored legacy single Message
is overwritten, not promoted. -/
def runStore (mem : MemBinding) (m : Message) : MemBinding :=
  match mem with
  | .unbound => .unbound
  | .bound (some (.msgs l)) => .bound (some (.msgs (l ++ [m])))
  | .bound (some (.single _)) => .bound (some (.msgs [m]))
  | .bound none => .bound (some (.msgs [m]))

/-- The history read of ChatAgent.Run: a stored slice is used as is, a
legacy single Message is promoted to a one-element history, and anything
else (including an unbound store or an absent key) yields an empty
history. -/
def readHistory (mem : MemBinding) : List Message :=
  match mem with
  | .bound (some (.msgs l)) => l
  | .bound (some (.single m)) => [m]
  | _ => []

/-! ## Prompt assembly and tool catalog (runner.go lines 100-132) -/

/-- Memory processors applied in registration order, each consuming its
predecessor's output. -/
def applyProcessors (a : ChatAgent) (history : List Message) : List Message :=
  a.processors.foldl (fun out p => p out) history

/-- Prompt assembly: the system prompt as first message, then the history
(replaced by the processor-pruned history when processors are configured),
then the current input message.  The Go code builds the unprocessed list
first and rebuilds it when processors exist; only the final value is
observable. -/
def assemble (a : ChatAgent) (history : List Message) (input : Message) :
    List LMessage :=
  let hist := if a.processors.isEmpty then history else applyProcessors a history
  { Role := "system", Content := a.Config.SystemPrompt } ::
    (hist.map toLMsg ++ [toLMsg input])

/-- Tool catalog built from the registry: one function-type definition per
registered tool (empty when no registry is bound). -/
def buildToolDefs : Option (List RegTool) → List LlmTool
  | none => []
  | some reg => reg.map fun t =>
      { ToolType := "function", Function := { FnName := t.ToolName, Description := t.Description } }

/-! ## Tool dispatch inside the loop (runner.go lines 177-221) -/

/-- The v0 argument convention (runner.go lines 186-193): when the raw JSON
argument string decodes to an object with a string field `input`, that field
is the tool input; otherwise the raw argument string is used verbatim. -/
def extractInput (env : GoEnv) (args : String) : String :=
  match env.parseInputArg args with
  | some v => v
  | none => args

/-- Per-iteration tool dispatch: for each requested call, resolve the tool
(an unknown name emits an event and is skipped), extract the input string
from the JSON arguments (the `input` field when present, otherwise the raw
argument string), run the before-tool hooks (first error is fatal), execute
the tool (an execution error is demoted to the content `"error: " ++ e`),
ignore after-tool hook errors, and append the tool-role result message
carrying the call's ID. -/
def execToolCalls (a : ChatAgent) (env : GoEnv) (reg : List RegTool) :
    List ToolCall → List LMessage → Except String (List LMessage)
  | [], msgs => .ok msgs
  | tc :: rest, msgs =>
    match regGet reg tc.Function.FnName with
    | none => execToolCalls a env reg rest msgs
    | some tool =>
      let inputStr := extractInput env tc.Function.Arguments
      match a.mw.findSome? (fun m => m.BeforeToolExecute tc.Function.FnName inputStr) with
      | some e => .error e
      | none =>
        let result :=
          match regExecute reg tool.ToolName inputStr with
          | .ok r => r
          | .error e => "error: " ++ e
        execToolCalls a env reg rest
          (msgs ++ [{ Role := "tool", Content := result, ToolCallID := tc.ID }])

/-! ## The ReAct loop (runner.go lines 140-229) -/

/-- Result of the iteration loop: a fatal error, or normal exit with the
last LM response, the final working message list, and the chat requests
actually sent to the LM. -/
inductive LoopOut
  | fatal (err : String) (requests : List ChatRequest)
  | finished (finalResp : Option Response) (msgs : List LMessage)
             (requests : List ChatRequest)
deriving Inhabited

/-- One-per-iteration loop of ChatAgent.Run.  Each iteration builds the
request from the working message list, runs the before-LM hooks (first error
fatal), invokes the LM (the request is recorded as an invocation; an LM
error is fatal with the "LLM call failed" wrap), runs the after-LM hooks
(first error fatal), and then: when the response carries tool calls and a
registry is bound, appends the assistant turn and the tool results to the
working list and continues; otherwise exits with the response as final. -/
def runLoop (a : ChatAgent) (env : GoEnv) (toolDefs : List LlmTool) :
    Nat → List LMessage → Option Response → List ChatRequest → LoopOut
  | 0, msgs, finalResp, reqs => .finished finalResp msgs reqs
  | fuel + 1, msgs, finalResp, reqs =>
    let req : ChatRequest := { Messages := msgs, Tools := toolDefs, SystemPrompt := "" }
    match a.mw.findSome? (fun m => m.BeforeLLMCall req) with
    | some e => .fatal e reqs
    | none =>
      let reqs' := reqs ++ [req]
      match a.Model req with
      | .error e => .fatal ("LLM call failed: " ++ e) reqs'
      | .ok response =>
        match a.mw.findSome? (fun m => m.AfterLLMResponse response) with
        | some e => .fatal e reqs'
        | none =>
          match a.Tools with
          | some reg =>
            if response.ToolCalls.isEmpty then .finished (some response) msgs reqs'
            else
              match execToolCalls a env reg response.ToolCalls
                  (msgs ++ [{ Role := "assistant", Content := response.Content }]) with
              | .error e => .fatal e reqs'
              | .ok msgs2 => runLoop a env toolDefs fuel msgs2 (some response) reqs'
          | none => .finished (some response) msgs reqs'

/-- Observable outcome of ChatAgent.Run: the returned message or error, the
chat requests sent to the LM in order, and the final memory state. -/
structure RunResult where
  outcome : Except String Message
  requests : List ChatRequest
  finalMem : MemBinding

/-- The iteration budget: `MaxIterations ≤ 0` is normalized to 1. -/
def iterFuel (c : AgentConfig) : Nat :=
  if c.MaxIterations ≤ 0 then 1 else c.MaxIterations.toNat

/-- ChatAgent.Run: parse the timeout (a non-empty unparsable duration is a
fatal configuration error raised before any memory or LM interaction),
append the input to the conversation log, read the history back, assemble
the prompt and tool catalog, run the iteration loop, and on normal exit
append the final assistant message to the log (after-run hook errors are
ignored) and return it. -/
def ChatAgent.Run (env : GoEnv) (a : ChatAgent) (input : Message) : RunResult :=
  if a.Config.Timeout ≠ "" ∧ env.parseDuration a.Config.Timeout = none then
    { outcome := .error "invalid timeout duration", requests := [], finalMem := a.Mem }
  else
    let mem1 := runStore a.Mem input
    let history := readHistory mem1
    let messages := assemble a history input
    let toolDefs := buildToolDefs a.Tools
    match runLoop a env toolDefs (iterFuel a.Config) messages none [] with
    | .fatal e reqs => { outcome := .error e, requests := reqs, finalMem := mem1 }
    | .finished none _ reqs =>
      { outcome := .error "no response from model", requests := reqs, finalMem := mem1 }
    | .finished (some r) _ reqs =>
      let result : Message := { Role := "assistant", Content := r.Content }
      { outcome := .ok result, requests := reqs, finalMem := runStore mem1 result }

/-! ## RunStream (runner.go lines 275-400) -/

/-- The memory append used by RunStream for both the input and the final
aggregated message: when retrieval yields a `[]Message` slice, append and
store back (store errors ignored); when retrieval errors, store `[m]`; when
retrieval yields any other value (e.g. a legacy single Message) nothing is
written at all. -/
def streamStore (mem : MemBinding) (m : Message) : MemBinding :=
  match mem with
  | .unbound => .unbound
  | .bound (some (.msgs l)) => .bound (some (.msgs (l ++ [m])))
  | .bound (some (.single prior)) => .bound (some (.single prior))
  | .bound none => .bound (some (.msgs [m]))

/-- The select loop of RunStream on the normal path (worker closes the inner
channel without error, no cancellation, every non-blocking send accepted):
nil chunks are skipped; a chunk with non-empty content is appended to the
aggregation buffer and emitted as an incremental assistant message flagged
`meta["streaming"]="true"`; after-LM hook errors are ignored.  Returns the
final buffer and the emitted deltas. -/
def streamLoop : List (Option Response) → String → List Message →
    String × List Message
  | [], buffer, emitted => (buffer, emitted)
  | none :: rest, buffer, emitted => streamLoop rest buffer emitted
  | some r :: rest, buffer, emitted =>
    if r.Content = "" then streamLoop rest buffer emitted
    else
      streamLoop rest (buffer ++ r.Content)
        (emitted ++ [{ Role := "assistant", Content := r.Content,
                       Meta := [("streaming", "true")] }])

/-- Observable outcome of ChatAgent.RunStream on the normal path: the
returned error (`none` = nil), the messages delivered to the sink in order
before it is closed, and the final memory state. -/
structure StreamResult where
  outcome : Option String
  emitted : List Message
  finalMem : MemBinding

/-- ChatAgent.RunStream on the normal-termination path: store the input
(with RunStream's append that leaves non-slice values untouched), build the
history, prompt and tool catalog, run the before-LM hooks (first error is
returned), drive the chunk loop, and on channel close emit and persist the
aggregated final assistant message — but only when the aggregation buffer is
non-empty. -/
def ChatAgent.RunStream (a : ChatAgent) (input : Message) : StreamResult :=
  let mem1 := streamStore a.Mem input
  let history := readHistory mem1
  let messages := assemble a history input
  let toolDefs := buildToolDefs a.Tools
  let req : ChatRequest := { Messages := messages, Tools := toolDefs }
  match a.mw.findSome? (fun m => m.BeforeLLMCall req) with
  | some e => { outcome := some e, emitted := [], finalMem := mem1 }
  | none =>
    match streamLoop a.StreamChunks "" [] with
    | (buffer, emitted) =>
      if buffer = "" then { outcome := none, emitted := emitted, finalMem := mem1 }
      else
        let final : Message := { Role := "assistant", Content := buffer }
        { outcome := none, emitted := emitted ++ [final],
          finalMem := streamStore mem1 final }

/-! ## Supervisor policies (agent/supervisor) -/

/-- The collection loop of FanOutFirst.Execute over the per-agent results in
completion order: the first nil-error result wins; otherwise the last error
is remembered, and returned once all agents have reported.  With no agents
the Go code returns `("", nil)`, a success with empty content. -/
def fanLoop : List (Except String String) → Option String → Except String String
  | [], lastErr =>
    match lastErr with
    | some e => .error e
    | none => .ok ""
  | .ok s :: _, _ => .ok s
  | .error e :: rest, _ => fanLoop rest (some e)

/-- FanOutFirst.Execute, modelled over the list of per-agent outcomes in the
order they complete (a permutation of the per-agent outcome assignment): the
buffered channel delivers exactly one result per agent. -/
def FanOutFirst.Execute (results : List (Except String String)) :
    Except String String :=
  fanLoop results none

/-! ## Helper lemmas for the TokenLimiter -/

/-- Total content length of a list of messages. -/
def contentsLen (l : List Message) : Nat :=
  (l.map fun m => m.Content.length).sum

theorem contentsLen_cons (m : Message) (l : List Message) :
    contentsLen (m :: l) = m.Content.length + contentsLen l := by
  simp [contentsLen]

theorem contentsLen_reverse (l : List Message) :
    contentsLen l.reverse = contentsLen l := by
  simp [contentsLen, List.map_reverse, List.sum_reverse]

/-- The trimming loop keeps a subsequence of its input list. -/
theorem trimLoop_sublist (maxChars : Nat) (l : List Message) :
    ∀ cur, (trimLoop maxChars l cur).Sublist l := by
  induction l with
  | nil => intro cur; simp [trimLoop]
  | cons m rest ih =>
    intro cur
    unfold trimLoop
    split
    · exact List.Sublist.cons m (ih cur)
    · exact List.Sublist.cons₂ m (ih _)

/-- The running total of the trimming loop never exceeds the budget. -/
theorem trimLoop_sum (maxChars : Nat) (l : List Message) :
    ∀ cur, cur ≤ maxChars → contentsLen (trimLoop maxChars l cur) + cur ≤ maxChars := by
  induction l with
  | nil => intro cur h; simpa [trimLoop, contentsLen] using h
  | cons m rest ih =>
    intro cur h
    unfold trimLoop
    split
    · exact ih cur h
    · rename_i hle
      have h2 := ih (cur + m.Content.length) (by omega)
      rw [contentsLen_cons]
      omega

/-- Case split on TokenLimiter.Process for a positive budget: either the
history already fits and is returned whole, or the trimming loop runs. -/
theorem tokenLimiter_process_eq (t : TokenLimiter) (history : List Message)
    (h1 : ¬ t.MaxChars ≤ 0) :
    t.Process history =
      (if ((contentsLen history : Int)) ≤ t.MaxChars then history
       else (trimLoop t.MaxChars.toNat history.reverse 0).reverse) := by
  unfold TokenLimiter.Process
  rw [if_neg h1]
  rfl

/-- TokenLimiter.Process returns a subsequence of the history, hence
preserves chronological order. -/
theorem tokenLimiter_sublist (t : TokenLimiter) (history : List Message) :
    (t.Process history).Sublist history := by
  by_cases h1 : t.MaxChars ≤ 0
  · simp [TokenLimiter.Process, h1]
  · rw [tokenLimiter_process_eq t history h1]
    by_cases h2 : ((contentsLen history : Int)) ≤ t.MaxChars
    · rw [if_pos h2]
    · rw [if_neg h2]
      have h := (trimLoop_sublist t.MaxChars.toNat history.reverse 0).reverse
      simpa using h

/-- With a positive budget, the total content length of the trimmer output
is within the budget. -/
theorem tokenLimiter_sum (t : TokenLimiter) (history : List Message)
    (hB : 0 < t.MaxChars) :
    ((contentsLen (t.Process history) : Int)) ≤ t.MaxChars := by
  have h1 : ¬ t.MaxChars ≤ 0 := by omega
  rw [tokenLimiter_process_eq t history h1]
  by_cases h2 : ((contentsLen history : Int)) ≤ t.MaxChars
  · rw [if_pos h2]; exact h2
  · rw [if_neg h2, contentsLen_reverse]
    have h := trimLoop_sum t.MaxChars.toNat history.reverse 0 (Nat.zero_le _)
    omega

/-- C3 (amended): for every history and every positive budget, the trimmer
output is a subsequence of the history (chronological order preserved) whose
total content length is at most the budget; it is not in general a
contiguous suffix, and a single over-budget message does not force an empty
result. -/
theorem C3_trimmer_amended (t : TokenLimiter) (history : List Message)
    (hB : 0 < t.MaxChars) :
    (t.Process history).Sublist history ∧
      ((contentsLen (t.Process history) : Int)) ≤ t.MaxChars :=
  ⟨tokenLimiter_sublist t history, tokenLimiter_sum t history hB⟩

/-- Witness for C3 (amended) at budget 5 and the spec's scenario history. -/
theorem C3_trimmer_amended_witness :
    (0 : Int) < 5 ∧
      ((TokenLimiter.Process ⟨5⟩
          [⟨"user", "12", []⟩, ⟨"assistant", "34", []⟩, ⟨"user", "5", []⟩]).Sublist
        [⟨"user", "12", []⟩, ⟨"assistant", "34", []⟩, ⟨"user", "5", []⟩] ∧
      ((contentsLen (TokenLimiter.Process ⟨5⟩
          [⟨"user", "12", []⟩, ⟨"assistant", "34", []⟩, ⟨"user", "5", []⟩]) : Int))
        ≤ (5 : Int)) :=
  ⟨by decide,
   C3_trimmer_amended ⟨5⟩
     [⟨"user", "12", []⟩, ⟨"assistant", "34", []⟩, ⟨"user", "5", []⟩] (by decide)⟩

/-- Counterexample to C3 as stated: with budget 3 and history
`["ab", "cdefg", "h"]` the trimmer keeps `["ab", "h"]`, which is not a
contiguous suffix of the history; and with history `["cdefg", "h"]` whose
first message alone exceeds the budget, the result is `["h"]`, not empty. -/
theorem C3_trimmer_counterexample :
    TokenLimiter.Process ⟨3⟩
        [⟨"user", "ab", []⟩, ⟨"assistant", "cdefg", []⟩, ⟨"user", "h", []⟩] =
      [⟨"user", "ab", []⟩, ⟨"user", "h", []⟩] ∧
    ¬ (TokenLimiter.Process ⟨3⟩
        [⟨"user", "ab", []⟩, ⟨"assistant", "cdefg", []⟩, ⟨"user", "h", []⟩]) <:+
      [⟨"user", "ab", []⟩, ⟨"assistant", "cdefg", []⟩, ⟨"user", "h", []⟩] ∧
    TokenLimiter.Process ⟨3⟩ [⟨"assistant", "cdefg", []⟩, ⟨"user", "h", []⟩] ≠ [] := by
  refine ⟨by decide, ?_, by decide⟩
  decide

/-! ## C10: guardrail truncation idempotence -/

/-- C10: the truncation step of SimpleGuardrails.BeforeLLMCall is
idempotent: with a positive `MaxInputChars`, truncating an already truncated
content changes nothing. -/
theorem C10_truncation_idempotent (g : SimpleGuardrails) (content : String)
    (hpos : 0 < g.MaxInputChars) :
    g.truncateStep (g.truncateStep content) = g.truncateStep content := by
  by_cases hc : 0 < g.MaxInputChars ∧ g.MaxInputChars < (content.length : Int)
  · have hc2 := hc.2
    have hlen : (String.mk (content.data.take g.MaxInputChars.toNat)).length
        = g.MaxInputChars.toNat := by
      show (content.data.take g.MaxInputChars.toNat).length = g.MaxInputChars.toNat
      rw [List.length_take]
      have : content.length = content.data.length := rfl
      omega
    have hcast : ((g.MaxInputChars.toNat : Int)) = g.MaxInputChars :=
      Int.toNat_of_nonneg (le_of_lt hpos)
    unfold SimpleGuardrails.truncateStep
    rw [if_pos hc]
    rw [if_neg]
    rw [hlen, hcast]
    simp
  · unfold SimpleGuardrails.truncateStep
    rw [if_neg hc, if_neg hc]

/-- Witness for C10 at `max_input_chars = 5` and content `"toolong"`. -/
theorem C10_truncation_idempotent_witness :
    (0 : Int) < 5 ∧
      SimpleGuardrails.truncateStep ⟨[], [], 5⟩
          (SimpleGuardrails.truncateStep ⟨[], [], 5⟩ "toolong") =
        SimpleGuardrails.truncateStep ⟨[], [], 5⟩ "toolong" :=
  ⟨by decide, C10_truncation_idempotent ⟨[], [], 5⟩ "toolong" (by decide)⟩

/-! ## C5: the input-append step of Run on the conversation log -/

/-- C5: evaluation of the input-append step of ChatAgent.Run.  On a stored
`[]Message` slice the new log is the old sequence with the input as one
additional tail entry; but on a stored legacy single Message the code writes
`[input]`, discarding the prior message instead of promoting it — contrary
to the spec and to the code's own comment (`initialize as slice with prior
value if it was a single message`). -/
theorem C5_runStore_legacy_drops_prior (m input : Message) (l : List Message) :
    runStore (.bound (some (.msgs l))) input = .bound (some (.msgs (l ++ [input]))) ∧
    runStore (.bound (some (.single m))) input = .bound (some (.msgs [input])) :=
  ⟨rfl, rfl⟩

/-! ## C6: first-success fan-out -/

/-- An Except value is an error exactly when it is not an ok. -/
theorem except_error_or_ok (x : Except String String) :
    (∃ e, x = .error e) ↔ ¬ ∃ s, x = .ok s := by
  cases x <;> simp

/-- All results are errors exactly when none is an ok. -/
theorem all_error_iff (results : List (Except String String)) :
    (∀ r ∈ results, ∃ e, r = .error e) ↔ ¬ ∃ r ∈ results, ∃ s, r = .ok s := by
  constructor
  · rintro h ⟨r, hr, s, rfl⟩
    rcases h _ hr with ⟨e, he⟩
    exact Except.noConfusion he
  · intro h r hr
    cases r with
    | ok s => exact absurd ⟨_, hr, s, rfl⟩ h
    | error e => exact ⟨e, rfl⟩

/-- The fan-out collection loop succeeds exactly when one of the (non-empty)
results is a success, whatever error is pending. -/
theorem fanLoop_ok_iff (results : List (Except String String)) :
    ∀ acc, results ≠ [] →
      ((∃ s, fanLoop results acc = .ok s) ↔ ∃ r ∈ results, ∃ s, r = .ok s) := by
  induction results with
  | nil => intro acc h; exact absurd rfl h
  | cons r rest ih =>
    intro acc _
    match r with
    | .ok s => simp [fanLoop]
    | .error e =>
      cases rest with
      | nil => simp [fanLoop]
      | cons r2 rest2 =>
        have h := ih (some e) (by simp)
        simp only [fanLoop]
        rw [h]
        simp

/-- When every result is an error and the last one is `e`, the collection
loop returns `e`. -/
theorem fanLoop_last_error (results : List (Except String String)) :
    ∀ acc e, results.getLast? = some (.error e) →
      (∀ r ∈ results, ∃ e', r = .error e') → fanLoop results acc = .error e := by
  induction results with
  | nil => intro acc e h _; simp at h
  | cons r rest ih =>
    intro acc e hlast hall
    rcases hall r (by simp) with ⟨e', rfl⟩
    cases rest with
    | nil =>
      simp only [List.getLast?_singleton, Option.some_inj] at hlast
      simp [fanLoop, ← hlast]
    | cons r2 rest2 =>
      rw [List.getLast?_cons_cons] at hlast
      exact ih (some e') e hlast (fun r hr => hall r (by simp [hr]))

/-- C6 (amended): for every non-empty list of per-agent outcomes in
completion order, FanOutFirst.Execute succeeds iff some agent succeeded,
errors iff all agents errored, and in the all-error case returns the last
error by completion order.  (With zero agents it returns success with empty
content, which is why non-emptiness is required.) -/
theorem C6_fanout_amended (results : List (Except String String))
    (hne : results ≠ []) :
    ((∃ s, FanOutFirst.Execute results = .ok s) ↔ ∃ r ∈ results, ∃ s, r = .ok s) ∧
    ((∃ e, FanOutFirst.Execute results = .error e) ↔ ∀ r ∈ results, ∃ e, r = .error e) ∧
    (∀ e, results.getLast? = some (.error e) →
      (∀ r ∈ results, ∃ e', r = .error e') →
        FanOutFirst.Execute results = .error e) := by
  refine ⟨fanLoop_ok_iff results none hne, ?_,
    fun e hl ha => fanLoop_last_error results none e hl ha⟩
  rw [except_error_or_ok, all_error_iff]
  exact not_congr (fanLoop_ok_iff results none hne)

/-- Witness for C6 (amended): one failing and one succeeding agent yield a
success, and two failing agents yield the later error. -/
theorem C6_fanout_amended_witness :
    (∃ s, FanOutFirst.Execute [.error "e1", .ok "OK"] = .ok s) ∧
      FanOutFirst.Execute [.error "e1", .error "e2"] = .error "e2" :=
  ⟨((C6_fanout_amended [.error "e1", .ok "OK"] (by simp)).1).2
      ⟨.ok "OK", by simp, "OK", rfl⟩,
   ((C6_fanout_amended [.error "e1", .error "e2"] (by simp)).2.2) "e2" (by simp)
      (by rintro r hr; rcases List.mem_pair.mp hr with rfl | rfl
          · exact ⟨"e1", rfl⟩
          · exact ⟨"e2", rfl⟩)⟩

/-- Counterexample to C6 as stated over all agent lists: with zero agents,
FanOutFirst.Execute returns success (`("", nil)` in Go) although no agent
returned ok, so "ok iff at least one agent returns ok" fails on the empty
list. -/
theorem C6_fanout_counterexample :
    FanOutFirst.Execute [] = .ok "" ∧
      ¬ ∃ r ∈ ([] : List (Except String String)), ∃ s, r = .ok s := by
  exact ⟨rfl, by simp⟩

/-! ## C7: tool execution errors are demoted to tool-role content -/

/-- C7: a tool call whose tool resolves but errors does not fail the
dispatch: the error text prefixed with `"error: "` becomes the content of a
tool-role message appended to the working message list, carrying the call's
`tool_call_id`. -/
theorem C7_tool_error_demoted (a : ChatAgent) (env : GoEnv) (reg : List RegTool)
    (tc : ToolCall) (msgs : List LMessage) (tool : RegTool) (e : String)
    (hGet : regGet reg tc.Function.FnName = some tool)
    (hmw : a.mw.findSome?
      (fun m => m.BeforeToolExecute tc.Function.FnName
        (extractInput env tc.Function.Arguments)) = none)
    (hExec : regExecute reg tool.ToolName (extractInput env tc.Function.Arguments)
      = .error e) :
    execToolCalls a env reg [tc] msgs =
      .ok (msgs ++ [{ Role := "tool", Content := "error: " ++ e,
                      ToolCallID := tc.ID }]) := by
  simp only [execToolCalls, hGet, hmw, hExec]

/-- Witness for C7: a registered `boom` tool that always fails produces the
error-prefixed tool message and an ok dispatch. -/
theorem C7_tool_error_demoted_witness :
    execToolCalls
        { Model := fun _ => .error "unused", StreamChunks := [],
          Tools := some [⟨"boom", "always fails", fun _ => .error "exploded"⟩],
          Mem := .unbound,
          Config := { MaxIterations := 1, Timeout := "", SystemPrompt := "" },
          processors := [], mw := [] }
        { parseDuration := fun _ => some 1, parseInputArg := fun _ => none }
        [⟨"boom", "always fails", fun _ => .error "exploded"⟩]
        [{ ID := "call1", Function := { FnName := "boom", Arguments := "rawtext" } }]
        [] =
      .ok [{ Role := "tool", Content := "error: exploded", ToolCallID := "call1" }] := by
  have h := C7_tool_error_demoted
    { Model := fun _ => .error "unused", StreamChunks := [],
      Tools := some [⟨"boom", "always fails", fun _ => .error "exploded"⟩],
      Mem := .unbound,
      Config := { MaxIterations := 1, Timeout := "", SystemPrompt := "" },
      processors := [], mw := [] }
    { parseDuration := fun _ => some 1, parseInputArg := fun _ => none }
    [⟨"boom", "always fails", fun _ => .error "exploded"⟩]
    { ID := "call1", Function := { FnName := "boom", Arguments := "rawtext" } }
    [] ⟨"boom", "always fails", fun _ => .error "exploded"⟩ "exploded"
    rfl rfl rfl
  simpa using h

/-! ## C2: streaming aggregation -/

/-- Concatenation of a list of strings. -/
def strConcat : List String → String
  | [] => ""
  | s :: rest => s ++ strConcat rest

/-- The incremental assistant messages the normal-path select loop emits for
a chunk sequence: one flagged delta per non-nil chunk with non-empty
content, in order. -/
def streamDeltas : List (Option Response) → List Message
  | [] => []
  | none :: rest => streamDeltas rest
  | some r :: rest =>
    if r.Content = "" then streamDeltas rest
    else { Role := "assistant", Content := r.Content,
           Meta := [("streaming", "true")] } :: streamDeltas rest

/-- The aggregation buffer accumulated over a chunk sequence. -/
def streamAgg : List (Option Response) → String
  | [] => ""
  | none :: rest => streamAgg rest
  | some r :: rest =>
    if r.Content = "" then streamAgg rest else r.Content ++ streamAgg rest

/-- The select loop computes exactly the aggregation buffer and the delta
sequence. -/
theorem streamLoop_eq (chunks : List (Option Response)) :
    ∀ buffer emitted, streamLoop chunks buffer emitted =
      (buffer ++ streamAgg chunks, emitted ++ streamDeltas chunks) := by
  induction chunks with
  | nil => intro buffer emitted; simp [streamLoop, streamAgg, streamDeltas]
  | cons oc rest ih =>
    intro buffer emitted
    match oc with
    | none => simp [streamLoop, streamAgg, streamDeltas, ih]
    | some r =>
      by_cases h : r.Content = ""
      · simp [streamLoop, streamAgg, streamDeltas, h, ih]
      · simp [streamLoop, streamAgg, streamDeltas, h, ih,
          String.append_assoc, List.append_assoc]

/-- Each emitted delta is an assistant message flagged as streaming. -/
theorem streamDeltas_flagged (chunks : List (Option Response)) :
    ∀ d ∈ streamDeltas chunks,
      d.Role = "assistant" ∧ d.Meta = [("streaming", "true")] := by
  induction chunks with
  | nil => simp [streamDeltas]
  | cons oc rest ih =>
    match oc with
    | none => simpa [streamDeltas] using ih
    | some r =>
      by_cases h : r.Content = ""
      · simpa [streamDeltas, h] using ih
      · intro d hd
        rw [streamDeltas, if_neg h] at hd
        rcases List.mem_cons.mp hd with rfl | hd'
        · exact ⟨rfl, rfl⟩
        · exact ih d hd'

/-- The aggregation buffer is the concatenation of the delta contents. -/
theorem streamAgg_eq_concat (chunks : List (Option Response)) :
    streamAgg chunks = strConcat ((streamDeltas chunks).map Message.Content) := by
  induction chunks with
  | nil => simp [streamAgg, streamDeltas, strConcat]
  | cons oc rest ih =>
    match oc with
    | none => simpa [streamAgg, streamDeltas] using ih
    | some r =>
      by_cases h : r.Content = ""
      · simpa [streamAgg, streamDeltas, h] using ih
      · simp [streamAgg, streamDeltas, h, strConcat, ih]

/-- C2 (amended): on a normal termination of RunStream with benign
before-LM middleware, the sink receives the streaming-flagged deltas in LM
emission order, followed by one final aggregated assistant message without
the streaming flag whose content is the concatenation of the delta
contents — but only when that concatenation is non-empty; when no content
was received (e.g. zero chunks) no final message is emitted at all. -/
theorem C2_stream_amended (a : ChatAgent) (input : Message)
    (hmw : ∀ m ∈ a.mw, ∀ req, m.BeforeLLMCall req = none) :
    (a.RunStream input).outcome = none ∧
    (a.RunStream input).emitted =
      streamDeltas a.StreamChunks ++
        (if streamAgg a.StreamChunks = "" then []
         else [{ Role := "assistant", Content := streamAgg a.StreamChunks }]) ∧
    (∀ d ∈ streamDeltas a.StreamChunks,
      d.Role = "assistant" ∧ d.Meta = [("streaming", "true")]) ∧
    streamAgg a.StreamChunks =
      strConcat ((streamDeltas a.StreamChunks).map Message.Content) := by
  have hfind : a.mw.findSome? (fun m => m.BeforeLLMCall
      { Messages := assemble a (readHistory (streamStore a.Mem input)) input,
        Tools := buildToolDefs a.Tools }) = none :=
    List.findSome?_eq_none_iff.mpr fun m hm => hmw m hm _
  refine ⟨?_, ?_, streamDeltas_flagged a.StreamChunks, streamAgg_eq_concat a.StreamChunks⟩
  · simp only [ChatAgent.RunStream, hfind, streamLoop_eq]
    by_cases h : streamAgg a.StreamChunks = "" <;>
      simp [h]
  · simp only [ChatAgent.RunStream, hfind, streamLoop_eq]
    by_cases h : streamAgg a.StreamChunks = "" <;>
      simp [h]

/-- A concrete agent whose LM stream closes without delivering any chunk. -/
def silentStreamAgent : ChatAgent :=
  { Model := fun _ => .ok { Content := "unused" }, StreamChunks := [],
    Tools := none, Mem := .bound none,
    Config := { MaxIterations := 1, Timeout := "", SystemPrompt := "sys" },
    processors := [], mw := [] }

/-- Witness for C2 (amended): an agent streaming chunks "a","b","c" with no
middleware delivers three flagged deltas and the aggregated final "abc". -/
theorem C2_stream_amended_witness :
    (ChatAgent.RunStream
      { silentStreamAgent with StreamChunks :=
          [some { Content := "a" }, some { Content := "b" },
           some { Content := "c" }] }
      ⟨"user", "hi", []⟩).emitted =
      [{ Role := "assistant", Content := "a", Meta := [("streaming", "true")] },
       { Role := "assistant", Content := "b", Meta := [("streaming", "true")] },
       { Role := "assistant", Content := "c", Meta := [("streaming", "true")] },
       { Role := "assistant", Content := "abc" }] := by
  have h := (C2_stream_amended
    { silentStreamAgent with StreamChunks :=
        [some { Content := "a" }, some { Content := "b" },
         some { Content := "c" }] }
    ⟨"user", "hi", []⟩ (by intro m hm req; simp [silentStreamAgent] at hm)).2.1
  rw [h]
  decide

/-- Counterexample to C2 as stated: an LM worker that closes its chunk
channel having sent nothing terminates RunStream normally (nil error), yet
nothing at all — in particular no final aggregated assistant message — is
delivered to the sink before it is closed. -/
theorem C2_stream_counterexample :
    (silentStreamAgent.RunStream ⟨"user", "hi", []⟩).outcome = none ∧
      (silentStreamAgent.RunStream ⟨"user", "hi", []⟩).emitted = [] :=
  ⟨rfl, rfl⟩

/-! ## C4: which middleware hook errors are fatal -/

/-- Replace, in a middleware, exactly the hooks whose errors Run ignores
(`after_tool_execute`, `after_run`) by no-ops. -/
def eraseRunIgnored (m : Middleware) : Middleware :=
  { m with AfterToolExecute := fun _ _ => none, AfterRun := fun _ => none }

/-- Replace, in a middleware, the hooks RunStream ignores or never consults
(everything except `before_lm_call`) by no-ops. -/
def eraseStreamIgnored (m : Middleware) : Middleware :=
  { m with AfterLLMResponse := fun _ => none,
           BeforeToolExecute := fun _ _ => none,
           AfterToolExecute := fun _ _ => none,
           AfterRun := fun _ => none }

/-- A hook lookup is unchanged under a field-preserving middleware map. -/
theorem findSome?_map_hook {β : Type} (l : List Middleware)
    (f : Middleware → Middleware) (g : Middleware → Option β)
    (h : ∀ m, g (f m) = g m) :
    (l.map f).findSome? g = l.findSome? g := by
  induction l with
  | nil => rfl
  | cons m rest ih => simp only [List.map_cons, List.findSome?_cons, h, ih]

/-- Tool dispatch for two agents agreeing on the before-tool hook lookup is
identical. -/
theorem execToolCalls_congr (a b : ChatAgent) (env : GoEnv) (reg : List RegTool)
    (hBT : ∀ n i, a.mw.findSome? (fun m => m.BeforeToolExecute n i) =
      b.mw.findSome? (fun m => m.BeforeToolExecute n i)) :
    ∀ tcs msgs, execToolCalls a env reg tcs msgs =
      execToolCalls b env reg tcs msgs := by
  intro tcs
  induction tcs with
  | nil => intro msgs; rfl
  | cons tc rest ih =>
    intro msgs
    simp only [execToolCalls]
    cases hg : regGet reg tc.Function.FnName with
    | none => exact ih msgs
    | some tool =>
      rw [hBT]
      cases hb : b.mw.findSome?
          (fun m => m.BeforeToolExecute tc.Function.FnName
            (extractInput env tc.Function.Arguments)) with
      | some e => rfl
      | none => exact ih _

/-- The loop for two agents agreeing on the LM client, the registry and the
before-LM, after-LM and before-tool hook lookups is identical: the
after-tool and after-run hook results are never consulted. -/
theorem runLoop_congr (a b : ChatAgent) (env : GoEnv) (toolDefs : List LlmTool)
    (hModel : a.Model = b.Model) (hTools : a.Tools = b.Tools)
    (hBL : ∀ req, a.mw.findSome? (fun m => m.BeforeLLMCall req) =
      b.mw.findSome? (fun m => m.BeforeLLMCall req))
    (hAL : ∀ r, a.mw.findSome? (fun m => m.AfterLLMResponse r) =
      b.mw.findSome? (fun m => m.AfterLLMResponse r))
    (hBT : ∀ n i, a.mw.findSome? (fun m => m.BeforeToolExecute n i) =
      b.mw.findSome? (fun m => m.BeforeToolExecute n i)) :
    ∀ fuel msgs fr reqs, runLoop a env toolDefs fuel msgs fr reqs =
      runLoop b env toolDefs fuel msgs fr reqs := by
  intro fuel
  induction fuel with
  | zero => intro msgs fr reqs; rfl
  | succ k ih =>
    intro msgs fr reqs
    simp only [runLoop]
    rw [hBL, hModel, hTools]
    cases b.mw.findSome? (fun m => m.BeforeLLMCall
        { Messages := msgs, Tools := toolDefs, SystemPrompt := "" }) with
    | some e => rfl
    | none =>
      try dsimp only
      cases b.Model { Messages := msgs, Tools := toolDefs, SystemPrompt := "" } with
      | error e => rfl
      | ok response =>
        try dsimp only
        rw [hAL]
        cases b.mw.findSome? (fun m => m.AfterLLMResponse response) with
        | some e => rfl
        | none =>
          try dsimp only
          cases b.Tools with
          | none => rfl
          | some reg =>
            try dsimp only
            by_cases hte : response.ToolCalls.isEmpty
            · simp only [hte, if_true]
            · simp only [hte, if_false]
              rw [execToolCalls_congr a b env reg hBT]
              cases execToolCalls b env reg response.ToolCalls
                  (msgs ++ [{ Role := "assistant", Content := response.Content }]) with
              | error e => rfl
              | ok msgs2 => exact ih msgs2 (some response) _

/-- Run depends on the middleware list only through the before-LM, after-LM
and before-tool hook lookups (after-tool and after-run results are never
consulted). -/
theorem run_mw_congr (a : ChatAgent) (mws : List Middleware) (env : GoEnv)
    (input : Message)
    (hBL : ∀ req, mws.findSome? (fun m => m.BeforeLLMCall req) =
      a.mw.findSome? (fun m => m.BeforeLLMCall req))
    (hAL : ∀ r, mws.findSome? (fun m => m.AfterLLMResponse r) =
      a.mw.findSome? (fun m => m.AfterLLMResponse r))
    (hBT : ∀ n i, mws.findSome? (fun m => m.BeforeToolExecute n i) =
      a.mw.findSome? (fun m => m.BeforeToolExecute n i)) :
    ChatAgent.Run env { a with mw := mws } input = ChatAgent.Run env a input := by
  simp only [ChatAgent.Run]
  try dsimp only
  rw [show assemble { a with mw := mws } = assemble a from rfl]
  rw [runLoop_congr { a with mw := mws } a env (buildToolDefs a.Tools)
    rfl rfl hBL hAL hBT]

/-- RunStream depends on the middleware list only through the before-LM hook
lookup (after-LM results are discarded; the tool and run hooks are never
invoked on the streaming path). -/
theorem runStream_mw_congr (a : ChatAgent) (mws : List Middleware)
    (input : Message)
    (hBL : ∀ req, mws.findSome? (fun m => m.BeforeLLMCall req) =
      a.mw.findSome? (fun m => m.BeforeLLMCall req)) :
    ChatAgent.RunStream { a with mw := mws } input = ChatAgent.RunStream a input := by
  simp only [ChatAgent.RunStream]
  try dsimp only
  rw [show assemble { a with mw := mws } = assemble a from rfl]
  rw [hBL]

/-- The iteration budget is always positive. -/
theorem iterFuel_pos (c : AgentConfig) : 0 < iterFuel c := by
  unfold iterFuel
  split
  · omega
  · rename_i h
    omega

/-- C4 (amended): in Run, errors from `after_tool_execute` and `after_run`
are ignored (erasing those hooks changes nothing) and an
`after_lm_response` error aborts the run with that error; but in RunStream
`after_lm_response` errors are ignored as well — only `before_lm_call` can
fail the streaming path. -/
theorem C4_after_hooks (a : ChatAgent) (env : GoEnv) (input : Message) :
    (ChatAgent.Run env { a with mw := a.mw.map eraseRunIgnored } input =
      ChatAgent.Run env a input) ∧
    (ChatAgent.RunStream { a with mw := a.mw.map eraseStreamIgnored } input =
      ChatAgent.RunStream a input) ∧
    (∀ e resp,
      a.Config.Timeout = "" →
      (∀ m ∈ a.mw, ∀ req, m.BeforeLLMCall req = none) →
      (∀ req, a.Model req = .ok resp) →
      a.mw.findSome? (fun m => m.AfterLLMResponse resp) = some e →
      (ChatAgent.Run env a input).outcome = .error e) := by
  refine ⟨?_, ?_, ?_⟩
  · exact run_mw_congr a (a.mw.map eraseRunIgnored) env input
      (fun req => findSome?_map_hook _ _ _ fun m => rfl)
      (fun r => findSome?_map_hook _ _ _ fun m => rfl)
      (fun n i => findSome?_map_hook _ _ _ fun m => rfl)
  · exact runStream_mw_congr a (a.mw.map eraseStreamIgnored) input
      (fun req => findSome?_map_hook _ _ _ fun m => rfl)
  · intro e resp hT hB hM hA
    have hcond : ¬ (a.Config.Timeout ≠ "" ∧
        env.parseDuration a.Config.Timeout = none) := by
      simp [hT]
    obtain ⟨k, hk⟩ : ∃ k, iterFuel a.Config = k + 1 :=
      ⟨iterFuel a.Config - 1, by have := iterFuel_pos a.Config; omega⟩
    have hfindB : a.mw.findSome? (fun m => m.BeforeLLMCall
        { Messages := assemble a (readHistory (runStore a.Mem input)) input,
          Tools := buildToolDefs a.Tools, SystemPrompt := "" }) = none :=
      List.findSome?_eq_none_iff.mpr fun m hm => hB m hm _
    have hloop : runLoop a env (buildToolDefs a.Tools) (iterFuel a.Config)
        (assemble a (readHistory (runStore a.Mem input)) input) none [] =
        .fatal e [{ Messages := assemble a (readHistory (runStore a.Mem input)) input,
                    Tools := buildToolDefs a.Tools, SystemPrompt := "" }] := by
      rw [hk]
      simp only [runLoop, hfindB, hM, hA, List.nil_append]
    simp only [ChatAgent.Run, if_neg hcond, hloop]

/-- A middleware whose after-LM hook always fails and whose other hooks are
no-ops. -/
def afterFailMW : Middleware :=
  { BeforeLLMCall := fun _ => none,
    AfterLLMResponse := fun _ => some "afterboom",
    BeforeToolExecute := fun _ _ => none,
    AfterToolExecute := fun _ _ => none,
    AfterRun := fun _ => none }

/-- Witness for C4: an agent with a failing after-LM middleware aborts Run
with that error. -/
theorem C4_after_hooks_witness :
    (ChatAgent.Run
        { parseDuration := fun _ => some 1, parseInputArg := fun _ => none }
        { silentStreamAgent with mw := [afterFailMW] }
        ⟨"user", "hi", []⟩).outcome = .error "afterboom" :=
  (C4_after_hooks { silentStreamAgent with mw := [afterFailMW] }
      { parseDuration := fun _ => some 1, parseInputArg := fun _ => none }
      ⟨"user", "hi", []⟩).2.2 "afterboom" { Content := "unused" } rfl
    (by intro m hm req
        have h := List.mem_singleton.mp hm
        subst h
        rfl)
    (fun req => rfl) rfl

/-- Counterexample to C4 as stated: on the streaming path an after-LM hook
error is discarded — RunStream with a middleware whose after-LM hook always
fails still terminates with a nil error after delivering messages to the
sink, so the error is not fatal there. -/
theorem C4_counterexample :
    (ChatAgent.RunStream
        { silentStreamAgent with
          mw := [afterFailMW],
          StreamChunks := [some { Content := "a" }] }
        ⟨"user", "hi", []⟩).outcome = none ∧
    (ChatAgent.RunStream
        { silentStreamAgent with
          mw := [afterFailMW],
          StreamChunks := [some { Content := "a" }] }
        ⟨"user", "hi", []⟩).emitted ≠ [] :=
  ⟨rfl, by decide⟩

/-! ## C8 and C9: request accounting of Run -/

/-- The chat requests recorded by a loop result. -/
def loopRequests : LoopOut → List ChatRequest
  | .fatal _ reqs => reqs
  | .finished _ _ reqs => reqs

/-- When the timeout parses (or is empty), Run's request list is the loop's
request list. -/
theorem run_requests_eq (a : ChatAgent) (env : GoEnv) (input : Message)
    (hcond : ¬ (a.Config.Timeout ≠ "" ∧
      env.parseDuration a.Config.Timeout = none)) :
    (ChatAgent.Run env a input).requests =
      loopRequests (runLoop a env (buildToolDefs a.Tools) (iterFuel a.Config)
        (assemble a (readHistory (runStore a.Mem input)) input) none []) := by
  simp only [ChatAgent.Run, if_neg hcond]
  cases runLoop a env (buildToolDefs a.Tools) (iterFuel a.Config)
      (assemble a (readHistory (runStore a.Mem input)) input) none [] with
  | fatal e reqs => rfl
  | finished fr msgs reqs => cases fr <;> rfl

/-- The loop only appends to its request accumulator. -/
theorem runLoop_requests_extend (a : ChatAgent) (env : GoEnv)
    (toolDefs : List LlmTool) :
    ∀ fuel msgs fr reqs, ∃ extra,
      loopRequests (runLoop a env toolDefs fuel msgs fr reqs) = reqs ++ extra := by
  intro fuel
  induction fuel with
  | zero => intro msgs fr reqs; exact ⟨[], by simp [runLoop, loopRequests]⟩
  | succ k ih =>
    intro msgs fr reqs
    simp only [runLoop]
    cases a.mw.findSome? (fun m => m.BeforeLLMCall
        { Messages := msgs, Tools := toolDefs, SystemPrompt := "" }) with
    | some e => exact ⟨[], by simp [loopRequests]⟩
    | none =>
      try dsimp only
      cases a.Model { Messages := msgs, Tools := toolDefs, SystemPrompt := "" } with
      | error e =>
        exact ⟨[{ Messages := msgs, Tools := toolDefs, SystemPrompt := "" }],
          by simp [loopRequests]⟩
      | ok response =>
        try dsimp only
        cases a.mw.findSome? (fun m => m.AfterLLMResponse response) with
        | some e =>
          exact ⟨[{ Messages := msgs, Tools := toolDefs, SystemPrompt := "" }],
            by simp [loopRequests]⟩
        | none =>
          try dsimp only
          cases a.Tools with
          | none =>
            exact ⟨[{ Messages := msgs, Tools := toolDefs, SystemPrompt := "" }],
              by simp [loopRequests]⟩
          | some reg =>
            try dsimp only
            by_cases hte : response.ToolCalls.isEmpty
            · rw [if_pos hte]
              exact ⟨[{ Messages := msgs, Tools := toolDefs, SystemPrompt := "" }],
                by simp [loopRequests]⟩
            · rw [if_neg hte]
              cases execToolCalls a env reg response.ToolCalls
                  (msgs ++ [{ Role := "assistant", Content := response.Content }]) with
              | error e =>
                exact ⟨[{ Messages := msgs, Tools := toolDefs, SystemPrompt := "" }],
                  by simp [loopRequests]⟩
              | ok msgs2 =>
                rcases ih msgs2 (some response)
                    (reqs ++ [{ Messages := msgs, Tools := toolDefs, SystemPrompt := "" }])
                  with ⟨extra, hx⟩
                refine ⟨[{ Messages := msgs, Tools := toolDefs, SystemPrompt := "" }] ++ extra, ?_⟩
                rw [hx]
                simp [List.append_assoc]

/-- With benign before-LM hooks, the first iteration's request heads the
loop's request list, and it carries the initial working messages. -/
theorem runLoop_first_request (a : ChatAgent) (env : GoEnv)
    (toolDefs : List LlmTool) (msgs : List LMessage) (k : Nat)
    (hB : a.mw.findSome? (fun m => m.BeforeLLMCall
      { Messages := msgs, Tools := toolDefs, SystemPrompt := "" }) = none) :
    ∃ extra, loopRequests (runLoop a env toolDefs (k + 1) msgs none []) =
      { Messages := msgs, Tools := toolDefs, SystemPrompt := "" } :: extra := by
  simp only [runLoop, hB, List.nil_append]
  cases a.Model { Messages := msgs, Tools := toolDefs, SystemPrompt := "" } with
  | error e => exact ⟨[], rfl⟩
  | ok response =>
    try dsimp only
    cases a.mw.findSome? (fun m => m.AfterLLMResponse response) with
    | some e => exact ⟨[], rfl⟩
    | none =>
      try dsimp only
      cases a.Tools with
      | none => exact ⟨[], rfl⟩
      | some reg =>
        try dsimp only
        by_cases hte : response.ToolCalls.isEmpty
        · rw [if_pos hte]
          exact ⟨[], rfl⟩
        · rw [if_neg hte]
          cases execToolCalls a env reg response.ToolCalls
              (msgs ++ [{ Role := "assistant", Content := response.Content }]) with
          | error e => exact ⟨[], rfl⟩
          | ok msgs2 =>
            rcases runLoop_requests_extend a env toolDefs k msgs2
                (some response) [{ Messages := msgs, Tools := toolDefs, SystemPrompt := "" }]
              with ⟨extra, hx⟩
            exact ⟨extra, by rw [hx]; rfl⟩

/-- The loop adds at most one request per unit of fuel. -/
theorem runLoop_requests_le (a : ChatAgent) (env : GoEnv)
    (toolDefs : List LlmTool) :
    ∀ fuel msgs fr reqs,
      (loopRequests (runLoop a env toolDefs fuel msgs fr reqs)).length ≤
        reqs.length + fuel := by
  intro fuel
  induction fuel with
  | zero => intro msgs fr reqs; simp [runLoop, loopRequests]
  | succ k ih =>
    intro msgs fr reqs
    simp only [runLoop]
    cases a.mw.findSome? (fun m => m.BeforeLLMCall
        { Messages := msgs, Tools := toolDefs, SystemPrompt := "" }) with
    | some e => simp [loopRequests]
    | none =>
      try dsimp only
      cases a.Model { Messages := msgs, Tools := toolDefs, SystemPrompt := "" } with
      | error e => simp [loopRequests]
      | ok response =>
        try dsimp only
        cases a.mw.findSome? (fun m => m.AfterLLMResponse response) with
        | some e => simp [loopRequests]
        | none =>
          try dsimp only
          cases a.Tools with
          | none => simp [loopRequests]
          | some reg =>
            try dsimp only
            by_cases hte : response.ToolCalls.isEmpty
            · rw [if_pos hte]
              simp [loopRequests]
            · rw [if_neg hte]
              cases execToolCalls a env reg response.ToolCalls
                  (msgs ++ [{ Role := "assistant", Content := response.Content }]) with
              | error e => simp [loopRequests]
              | ok msgs2 =>
                have h := ih msgs2 (some response)
                  (reqs ++ [{ Messages := msgs, Tools := toolDefs, SystemPrompt := "" }])
                simp at h ⊢
                omega

/-- With benign before-LM hooks a one-iteration loop sends exactly one
request, whatever the LM, tools and remaining hooks do. -/
theorem runLoop_one_request (a : ChatAgent) (env : GoEnv)
    (toolDefs : List LlmTool) (msgs : List LMessage)
    (hB : a.mw.findSome? (fun m => m.BeforeLLMCall
      { Messages := msgs, Tools := toolDefs, SystemPrompt := "" }) = none) :
    (loopRequests (runLoop a env toolDefs 1 msgs none [])).length = 1 := by
  rcases runLoop_first_request a env toolDefs msgs 0 hB with ⟨extra, hx⟩
  have hle := runLoop_requests_le a env toolDefs 1 msgs none []
  rw [hx] at hle ⊢
  simp only [List.length_cons, List.length_nil] at hle ⊢
  omega

/-- C8: configuration handling of Run.  A non-empty unparsable timeout is a
fatal configuration error raised before any LM call or memory operation (no
requests are sent and the memory binding is returned untouched);
`max_iterations ≤ 0` is normalized to an iteration budget of 1, and then
exactly one LM invocation is attempted. -/
theorem C8_config_normalization (a : ChatAgent) (env : GoEnv) (input : Message) :
    (a.Config.Timeout ≠ "" → env.parseDuration a.Config.Timeout = none →
      ChatAgent.Run env a input =
        { outcome := .error "invalid timeout duration", requests := [],
          finalMem := a.Mem }) ∧
    (a.Config.MaxIterations ≤ 0 → iterFuel a.Config = 1) ∧
    (a.Config.MaxIterations ≤ 0 → a.Config.Timeout = "" →
      (∀ m ∈ a.mw, ∀ req, m.BeforeLLMCall req = none) →
      (ChatAgent.Run env a input).requests.length = 1) := by
  refine ⟨?_, ?_, ?_⟩
  · intro h1 h2
    simp only [ChatAgent.Run, if_pos (And.intro h1 h2)]
  · intro h
    unfold iterFuel
    rw [if_pos h]
  · intro hIter hT hB
    have hcond : ¬ (a.Config.Timeout ≠ "" ∧
        env.parseDuration a.Config.Timeout = none) := by simp [hT]
    rw [run_requests_eq a env input hcond]
    have hfuel : iterFuel a.Config = 1 := by unfold iterFuel; rw [if_pos hIter]
    rw [hfuel]
    exact runLoop_one_request a env (buildToolDefs a.Tools) _
      (List.findSome?_eq_none_iff.mpr fun m hm => hB m hm _)

/-- Witness for C8: a bad timeout aborts with no request and untouched
memory; max_iterations = 0 still yields exactly one LM invocation. -/
theorem C8_config_normalization_witness :
    ChatAgent.Run { parseDuration := fun _ => none, parseInputArg := fun _ => none }
        { silentStreamAgent with
          Config := { MaxIterations := 0, Timeout := "bogus", SystemPrompt := "sys" } }
        ⟨"user", "hi", []⟩ =
      { outcome := .error "invalid timeout duration", requests := [],
        finalMem := .bound none } ∧
    (ChatAgent.Run { parseDuration := fun _ => some 1, parseInputArg := fun _ => none }
        { silentStreamAgent with
          Config := { MaxIterations := 0, Timeout := "", SystemPrompt := "sys" } }
        ⟨"user", "hi", []⟩).requests.length = 1 := by
  constructor
  · exact (C8_config_normalization _ _ _).1 (by decide) rfl
  · exact (C8_config_normalization _ _ _).2.2 (by decide) rfl
      (by intro m hm req; simp [silentStreamAgent] at hm)

/-- Appending the input to a bound conversation log always leaves the input
as the final history entry read back. -/
theorem readHistory_runStore_bound (b : Option MemValue) (input : Message) :
    ∃ h, readHistory (runStore (.bound b) input) = h ++ [input] := by
  cases b with
  | none => exact ⟨[], rfl⟩
  | some v =>
    cases v with
    | msgs l => exact ⟨l, rfl⟩
    | single m => exact ⟨[], rfl⟩

/-- C9: with a bound memory store (and no processors), the first LM request
contains the input twice: the input is appended to the conversation log
before the history is read back, so it is the last history entry, and the
engine then appends the input again after the history. -/
theorem C9_input_duplicated (a : ChatAgent) (env : GoEnv) (input : Message)
    (hT : a.Config.Timeout = "") (hP : a.processors = [])
    (hMem : a.Mem ≠ .unbound)
    (hB : ∀ m ∈ a.mw, ∀ req, m.BeforeLLMCall req = none) :
    ∃ pre req, (ChatAgent.Run env a input).requests.head? = some req ∧
      req.Messages = pre ++ [toLMsg input, toLMsg input] := by
  have hcond : ¬ (a.Config.Timeout ≠ "" ∧
      env.parseDuration a.Config.Timeout = none) := by simp [hT]
  obtain ⟨k, hk⟩ : ∃ k, iterFuel a.Config = k + 1 :=
    ⟨iterFuel a.Config - 1, by have := iterFuel_pos a.Config; omega⟩
  obtain ⟨b, hb⟩ : ∃ b, a.Mem = .bound b := by
    cases hmem : a.Mem with
    | unbound => exact absurd hmem hMem
    | bound b => exact ⟨b, rfl⟩
  rcases readHistory_runStore_bound b input with ⟨h', hh⟩
  have hhist : readHistory (runStore a.Mem input) = h' ++ [input] := by
    rw [hb]; exact hh
  rcases runLoop_first_request a env (buildToolDefs a.Tools)
      (assemble a (readHistory (runStore a.Mem input)) input) k
      (List.findSome?_eq_none_iff.mpr fun m hm => hB m hm _) with ⟨extra, hx⟩
  refine ⟨{ Role := "system", Content := a.Config.SystemPrompt } :: h'.map toLMsg,
    { Messages := assemble a (readHistory (runStore a.Mem input)) input,
      Tools := buildToolDefs a.Tools, SystemPrompt := "" }, ?_, ?_⟩
  · rw [run_requests_eq a env input hcond, hk, hx]
    rfl
  · show assemble a (readHistory (runStore a.Mem input)) input = _
    rw [hhist]
    simp [assemble, hP, toLMsg]

/-- Witness for C9 on a concrete agent with an empty bound log: the first
request is `[system, input, input]`. -/
theorem C9_input_duplicated_witness :
    ∃ pre req,
      (ChatAgent.Run { parseDuration := fun _ => some 1, parseInputArg := fun _ => none }
        silentStreamAgent ⟨"user", "hi", []⟩).requests.head? = some req ∧
      req.Messages = pre ++ [toLMsg ⟨"user", "hi", []⟩, toLMsg ⟨"user", "hi", []⟩] :=
  C9_input_duplicated silentStreamAgent
    { parseDuration := fun _ => some 1, parseInputArg := fun _ => none }
    ⟨"user", "hi", []⟩ rfl rfl (by decide)
    (by intro m hm req; simp [silentStreamAgent] at hm)

/-! ## C1: LM invocation count and log growth under an always-tool-calling LM -/

/-- The loop's request accumulator only shifts its output: running with a
prefixed accumulator prefixes the resulting request list. -/
theorem runLoop_reqs_shift (a : ChatAgent) (env : GoEnv)
    (toolDefs : List LlmTool) :
    ∀ fuel msgs fr reqs1 reqs2,
      runLoop a env toolDefs fuel msgs fr (reqs1 ++ reqs2) =
        match runLoop a env toolDefs fuel msgs fr reqs2 with
        | .fatal e rs => .fatal e (reqs1 ++ rs)
        | .finished r m rs => .finished r m (reqs1 ++ rs) := by
  intro fuel
  induction fuel with
  | zero => intro msgs fr reqs1 reqs2; rfl
  | succ k ih =>
    intro msgs fr reqs1 reqs2
    simp only [runLoop]
    cases a.mw.findSome? (fun m => m.BeforeLLMCall
        { Messages := msgs, Tools := toolDefs, SystemPrompt := "" }) with
    | some e => rfl
    | none =>
      try dsimp only
      cases a.Model { Messages := msgs, Tools := toolDefs, SystemPrompt := "" } with
      | error e => simp [List.append_assoc]
      | ok response =>
        try dsimp only
        cases a.mw.findSome? (fun m => m.AfterLLMResponse response) with
        | some e => simp [List.append_assoc]
        | none =>
          try dsimp only
          cases a.Tools with
          | none => simp [List.append_assoc]
          | some reg =>
            try dsimp only
            by_cases hte : response.ToolCalls.isEmpty
            · rw [if_pos hte, if_pos hte]
              simp [List.append_assoc]
            · rw [if_neg hte, if_neg hte]
              cases execToolCalls a env reg response.ToolCalls
                  (msgs ++ [{ Role := "assistant", Content := response.Content }]) with
              | error e => simp [List.append_assoc]
              | ok msgs2 =>
                rw [show (reqs1 ++ reqs2) ++
                    [{ Messages := msgs, Tools := toolDefs, SystemPrompt := "" }] =
                    reqs1 ++ (reqs2 ++
                    [{ Messages := msgs, Tools := toolDefs, SystemPrompt := "" }])
                  from by simp [List.append_assoc]]
                exact ih msgs2 (some response) reqs1 _

/-- Dispatch of a single resolvable tool call under benign before-tool hooks
always succeeds, appending one tool-role message with the call's ID. -/
theorem execToolCalls_single (a : ChatAgent) (env : GoEnv) (reg : List RegTool)
    (tc : ToolCall) (tool : RegTool) (base : List LMessage)
    (hGet : regGet reg tc.Function.FnName = some tool)
    (hBT : ∀ m ∈ a.mw, ∀ n i, m.BeforeToolExecute n i = none) :
    ∃ res, execToolCalls a env reg [tc] base =
      .ok (base ++ [{ Role := "tool", Content := res, ToolCallID := tc.ID }]) := by
  have hfs : a.mw.findSome? (fun m => m.BeforeToolExecute tc.Function.FnName
      (extractInput env tc.Function.Arguments)) = none :=
    List.findSome?_eq_none_iff.mpr fun m hm => hBT m hm _ _
  simp only [execToolCalls, hGet, hfs]
  exact ⟨_, rfl⟩

/-- One reason-act iteration grows the working message list by exactly an
assistant turn and a tool turn: the relation between consecutive LM
requests. -/
def grows2 (r₁ r₂ : ChatRequest) : Prop :=
  ∃ ac tmsg, r₂.Messages = r₁.Messages ++ [ac, tmsg] ∧
    ac.Role = "assistant" ∧ tmsg.Role = "tool"

/-- Under benign middleware, a bound registry, and an LM that always
requests exactly one resolvable tool call, the loop runs its full fuel:
it sends exactly `fuel` requests, the first carrying the initial working
messages, and each consecutive pair of requests grows by one assistant and
one tool turn. -/
theorem runLoop_toolcall_chain (a : ChatAgent) (env : GoEnv) (reg : List RegTool)
    (toolDefs : List LlmTool)
    (hTools : a.Tools = some reg)
    (hB : ∀ m ∈ a.mw, ∀ req, m.BeforeLLMCall req = none)
    (hA : ∀ m ∈ a.mw, ∀ r, m.AfterLLMResponse r = none)
    (hBT : ∀ m ∈ a.mw, ∀ n i, m.BeforeToolExecute n i = none)
    (hM : ∀ req, ∃ r tc tool, a.Model req = .ok r ∧ r.ToolCalls = [tc] ∧
      regGet reg tc.Function.FnName = some tool) :
    ∀ fuel msgs fr, 0 < fuel →
      ∃ L r msgs', runLoop a env toolDefs fuel msgs fr [] =
          .finished (some r) msgs' L ∧
        L.length = fuel ∧
        L.head?.map ChatRequest.Messages = some msgs ∧
        List.Chain' grows2 L := by
  intro fuel
  induction fuel with
  | zero => intro msgs fr h; omega
  | succ k ih =>
    intro msgs fr _
    have hfB : a.mw.findSome? (fun m => m.BeforeLLMCall
        { Messages := msgs, Tools := toolDefs, SystemPrompt := "" }) = none :=
      List.findSome?_eq_none_iff.mpr fun m hm => hB m hm _
    rcases hM { Messages := msgs, Tools := toolDefs, SystemPrompt := "" } with
      ⟨r0, tc, tool, hr0, htc, hget⟩
    have hfA : a.mw.findSome? (fun m => m.AfterLLMResponse r0) = none :=
      List.findSome?_eq_none_iff.mpr fun m hm => hA m hm _
    rcases execToolCalls_single a env reg tc tool
        (msgs ++ [{ Role := "assistant", Content := r0.Content }]) hget hBT with
      ⟨res, hexec⟩
    have hstep : runLoop a env toolDefs (k + 1) msgs fr [] =
        runLoop a env toolDefs k
          ((msgs ++ [{ Role := "assistant", Content := r0.Content }]) ++
            [{ Role := "tool", Content := res, ToolCallID := tc.ID }])
          (some r0) [{ Messages := msgs, Tools := toolDefs, SystemPrompt := "" }] := by
      simp only [runLoop, hfB, hr0, hfA, hTools, htc, List.isEmpty_cons,
        Bool.false_eq_true, if_false, List.nil_append, hexec]
    cases k with
    | zero =>
      refine ⟨[{ Messages := msgs, Tools := toolDefs, SystemPrompt := "" }],
        r0,
        (msgs ++ [{ Role := "assistant", Content := r0.Content }]) ++
          [{ Role := "tool", Content := res, ToolCallID := tc.ID }],
        ?_, rfl, rfl, List.chain'_singleton _⟩
      rw [hstep]
      rfl
    | succ k2 =>
      rcases ih ((msgs ++ [{ Role := "assistant", Content := r0.Content }]) ++
          [{ Role := "tool", Content := res, ToolCallID := tc.ID }])
          (some r0) (by omega) with ⟨L', r', msgs'', heq, hlen, hhead, hchain⟩
      have hshift := runLoop_reqs_shift a env toolDefs (k2 + 1)
        ((msgs ++ [{ Role := "assistant", Content := r0.Content }]) ++
          [{ Role := "tool", Content := res, ToolCallID := tc.ID }])
        (some r0) [{ Messages := msgs, Tools := toolDefs, SystemPrompt := "" }] []
      rw [List.append_nil, heq] at hshift
      refine ⟨{ Messages := msgs, Tools := toolDefs, SystemPrompt := "" } :: L',
        r', msgs'', ?_, ?_, rfl, ?_⟩
      · rw [hstep, hshift]
        rfl
      · simp [hlen]
      · refine List.chain'_cons'.mpr ⟨?_, hchain⟩
        intro y hy
        have hyh : L'.head? = some y := hy
        rw [hyh] at hhead
        have hym : y.Messages =
            (msgs ++ [{ Role := "assistant", Content := r0.Content }]) ++
              [{ Role := "tool", Content := res, ToolCallID := tc.ID }] := by
          simpa using hhead
        exact ⟨{ Role := "assistant", Content := r0.Content },
          { Role := "tool", Content := res, ToolCallID := tc.ID },
          by rw [hym]; simp [List.append_assoc], rfl, rfl⟩

/-- C1 (amended): with a bound registry, benign middleware, and an LM that
always requests exactly one resolvable tool call, Run performs exactly
`iterFuel` LM invocations (`= N` when `max_iterations = N ≥ 1`); each
consecutive pair of LM requests grows the working message list by exactly
one assistant turn and one tool-role turn (the tool result observed by the
next LM call); and the conversation log stored under `conversation` grows by
exactly 2 entries — the input and the final assistant message — not by
`1 + N + N`. -/
theorem C1_run_amended (a : ChatAgent) (env : GoEnv) (input : Message)
    (reg : List RegTool) (l : List Message)
    (hT : a.Config.Timeout = "")
    (hMem : a.Mem = .bound (some (.msgs l)))
    (hTools : a.Tools = some reg)
    (hB : ∀ m ∈ a.mw, ∀ req, m.BeforeLLMCall req = none)
    (hA : ∀ m ∈ a.mw, ∀ r, m.AfterLLMResponse r = none)
    (hBT : ∀ m ∈ a.mw, ∀ n i, m.BeforeToolExecute n i = none)
    (hM : ∀ req, ∃ r tc tool, a.Model req = .ok r ∧ r.ToolCalls = [tc] ∧
      regGet reg tc.Function.FnName = some tool) :
    (ChatAgent.Run env a input).requests.length = iterFuel a.Config ∧
    List.Chain' grows2 (ChatAgent.Run env a input).requests ∧
    ∃ fin, (ChatAgent.Run env a input).outcome = .ok fin ∧
      fin.Role = "assistant" ∧
      (ChatAgent.Run env a input).finalMem =
        .bound (some (.msgs (l ++ [input, fin]))) := by
  have hcond : ¬ (a.Config.Timeout ≠ "" ∧
      env.parseDuration a.Config.Timeout = none) := by simp [hT]
  rcases runLoop_toolcall_chain a env reg (buildToolDefs a.Tools) hTools hB hA hBT hM
      (iterFuel a.Config)
      (assemble a (readHistory (runStore a.Mem input)) input) none
      (iterFuel_pos a.Config) with ⟨L, r, msgs', heq, hlen, hhead, hchain⟩
  have hRun : ChatAgent.Run env a input =
      { outcome := .ok { Role := "assistant", Content := r.Content },
        requests := L,
        finalMem := runStore (runStore a.Mem input)
          { Role := "assistant", Content := r.Content } } := by
    simp only [ChatAgent.Run, if_neg hcond, heq]
  rw [hRun]
  refine ⟨hlen, hchain, { Role := "assistant", Content := r.Content }, rfl, rfl, ?_⟩
  show runStore (runStore a.Mem input) _ = _
  rw [hMem]
  have hmm : runStore (runStore (.bound (some (.msgs l))) input)
      ({ Role := "assistant", Content := r.Content } : Message) =
      .bound (some (.msgs ((l ++ [input]) ++
        [{ Role := "assistant", Content := r.Content }]))) := rfl
  rw [hmm]
  simp [List.append_assoc]

/-- Shared oracle environment for concrete runs: every duration parses and
no JSON argument object carries an `input` field. -/
def sampleEnv : GoEnv :=
  { parseDuration := fun _ => some 1, parseInputArg := fun _ => none }

/-- A concrete echo tool. -/
def echoTool : RegTool :=
  { ToolName := "echo", Description := "echoes", Execute := fun s => .ok ("ECHO:" ++ s) }

/-- A concrete LM response carrying one `echo` tool call. -/
def echoCallResponse : Response :=
  { Content := "calling",
    ToolCalls := [{ ID := "c1", Function := { FnName := "echo", Arguments := "hello" } }] }

/-- A concrete agent over an empty bound log whose LM always requests one
`echo` tool call. -/
def toolCallAgent : ChatAgent :=
  { Model := fun _ => .ok echoCallResponse,
    StreamChunks := [],
    Tools := some [echoTool],
    Mem := .bound (some (.msgs [])),
    Config := { MaxIterations := 2, Timeout := "", SystemPrompt := "sys" },
    processors := [], mw := [] }

/-- The same agent with a single iteration. -/
def toolCallAgent1 : ChatAgent :=
  { toolCallAgent with
    Config := { MaxIterations := 1, Timeout := "", SystemPrompt := "sys" } }

/-- Witness for C1 (amended) on the concrete two-iteration echo agent. -/
theorem C1_run_amended_witness :
    (ChatAgent.Run sampleEnv toolCallAgent ⟨"user", "hi", []⟩).requests.length =
      iterFuel toolCallAgent.Config ∧
    List.Chain' grows2 (ChatAgent.Run sampleEnv toolCallAgent ⟨"user", "hi", []⟩).requests ∧
    ∃ fin, (ChatAgent.Run sampleEnv toolCallAgent ⟨"user", "hi", []⟩).outcome = .ok fin ∧
      fin.Role = "assistant" ∧
      (ChatAgent.Run sampleEnv toolCallAgent ⟨"user", "hi", []⟩).finalMem =
        .bound (some (.msgs ([] ++ [⟨"user", "hi", []⟩, fin]))) :=
  C1_run_amended toolCallAgent sampleEnv ⟨"user", "hi", []⟩ [echoTool] [] rfl rfl rfl
    (by intro m hm; simp [toolCallAgent] at hm)
    (by intro m hm; simp [toolCallAgent] at hm)
    (by intro m hm; simp [toolCallAgent] at hm)
    (fun req => ⟨echoCallResponse,
      { ID := "c1", Function := { FnName := "echo", Arguments := "hello" } },
      echoTool, rfl, rfl, rfl⟩)

/-- Counterexample to C1 as stated: on the one-iteration echo agent the
stored conversation log ends with exactly 2 new entries (the input and the
final assistant turn) although the claim predicts `1 + N + N = 3` new
entries for `N = 1`; tool results and per-iteration assistant turns live in
the working message list, not in the stored log. -/
theorem C1_log_growth_counterexample :
    (ChatAgent.Run sampleEnv toolCallAgent1 ⟨"user", "hi", []⟩).finalMem =
      .bound (some (.msgs [⟨"user", "hi", []⟩, ⟨"assistant", "calling", []⟩])) ∧
    (ChatAgent.Run sampleEnv toolCallAgent1 ⟨"user", "hi", []⟩).requests.length = 1 ∧
    ¬ (2 = 1 + 1 + 1) := by
  refine ⟨by decide, by decide, by decide⟩
